import Mathlib

/-
Verification of the fast JSON document navigator (ext/oj/fast.c).

The C source is shallowly embedded: the input buffer is a `List Char`,
parsing consumes the list instead of advancing `pi->s`, and the in-place
NUL-termination of scalar payloads is reflected by storing each token's
exact byte range in the node.  Ruby VALUEs are modelled by `RValue`; heap
objects carry an allocation id `oid` drawn from a counter threaded through
materialization, so "the identical host object" is expressible (same oid)
next to structural equality (equal up to oids, see `strip`).
-/

set_option maxHeartbeats 1000000

namespace Oj

/-- Node kinds, after the `T_NIL .. T_HASH` ruby type tags used by fast.c. -/
inductive LType where
  | tNil | tTrue | tFalse | tFixnum | tFloat | tString | tArray | tHash
deriving DecidableEq, Repr

/-- `parent_type` of a leaf: discriminates the key/index union. -/
inductive PType where
  | pNone | pArray | pHash
deriving DecidableEq, Repr

/-- `value_type` of a leaf: `STR_VAL`, `COL_VAL` or `RUBY_VAL`. -/
inductive VType where
  | strVal | colVal | rubyVal
deriving DecidableEq, Repr

/-- Ruby host values.  `oid` is an allocation identifier for heap objects
(strings, floats, arrays, hashes): two values with different oids are
distinct Ruby objects even when structurally equal.  Hash keys and entry
order are kept as an association list in insertion order (duplicate keys:
the later entry is the one `rb_hash_aset` would keep; no claim below
depends on duplicates).  A float is represented by the payload string that
`rb_cstr_to_dbl` would read, which determines the double. -/
inductive RValue where
  | vNil | vTrue | vFalse
  | vInt (n : Int)
  | vFloat (oid : Nat) (s : List Char)
  | vStr (oid : Nat) (s : List Char)
  | vArr (oid : Nat) (elems : List RValue)
  | vHash (oid : Nat) (entries : List (List Char × RValue))

/-- The `_Leaf` record.  The C unions are split into separate fields:
`key`/`index` (discriminated by `parentType`), and `str`/`elements`/`cached`
(discriminated by `valueType`: RAW bytes, collection children, cached ruby
value).  The circular sibling ring with its tail pointer is represented by
the children in head-to-tail (insertion) order. -/
inductive Leaf where
  | mk (type : LType) (parentType : PType) (key : List Char) (index : Nat)
       (str : List Char) (valueType : VType) (cached : Option RValue)
       (elements : List Leaf)

def Leaf.type : Leaf → LType | .mk t _ _ _ _ _ _ _ => t
def Leaf.parentType : Leaf → PType | .mk _ p _ _ _ _ _ _ => p
def Leaf.key : Leaf → List Char | .mk _ _ k _ _ _ _ _ => k
def Leaf.index : Leaf → Nat | .mk _ _ _ i _ _ _ _ => i
def Leaf.str : Leaf → List Char | .mk _ _ _ _ s _ _ _ => s
def Leaf.valueType : Leaf → VType | .mk _ _ _ _ _ v _ _ => v
def Leaf.cached : Leaf → Option RValue | .mk _ _ _ _ _ _ c _ => c
def Leaf.elements : Leaf → List Leaf | .mk _ _ _ _ _ _ _ e => e

def Leaf.withStr : Leaf → List Char → Leaf
  | .mk t p k i _ v c e, s => .mk t p k i s v c e
def Leaf.withKey : Leaf → List Char → Leaf
  | .mk t _ _ i s v c e, k => .mk t .pHash k i s v c e
def Leaf.withIndex : Leaf → Nat → Leaf
  | .mk t _ k _ s v c e, i => .mk t .pArray k i s v c e
def Leaf.withElements : Leaf → List Leaf → Leaf
  | .mk t p k i s v c _, e => .mk t p k i s v c e

/-- `leaf_init`: a fresh node of the given type.  NIL/TRUE/FALSE are born
with a RUBY value; collections start as `COL_VAL`; the rest hold raw
bytes. -/
def leaf_init (t : LType) : Leaf :=
  match t with
  | .tArray => .mk t .pNone [] 0 [] .colVal none []
  | .tHash => .mk t .pNone [] 0 [] .colVal none []
  | .tNil => .mk t .pNone [] 0 [] .rubyVal (some .vNil) []
  | .tTrue => .mk t .pNone [] 0 [] .rubyVal (some .vTrue) []
  | .tFalse => .mk t .pNone [] 0 [] .rubyVal (some .vFalse) []
  | _ => .mk t .pNone [] 0 [] .strVal none []

/-- Whitespace set skipped by `next_non_white`. -/
def isWS (c : Char) : Bool :=
  c = ' ' || c = '\t' || c = '\x0c' || c = '\n' || c = '\r'

def skipWS (s : List Char) : List Char := s.dropWhile isWS

def isDigitC (c : Char) : Bool := '0' ≤ c && c ≤ '9'

def digitVal (c : Char) : Nat := c.toNat - '0'.toNat

/-- Reading a C string: bytes up to the first NUL (`rb_str_new2`, `strlen`,
`strncmp` semantics). -/
def cstr (s : List Char) : List Char := s.takeWhile (fun c => c ≠ '\x00')

def hexDigit (c : Char) : Option Nat :=
  if '0' ≤ c && c ≤ '9' then some (c.toNat - '0'.toNat)
  else if 'A' ≤ c && c ≤ 'F' then some (c.toNat - 'A'.toNat + 10)
  else if 'a' ≤ c && c ≤ 'f' then some (c.toNat - 'a'.toNat + 10)
  else none

/-- `read_hex`: two hex digits folded into one byte (`b << 4` plus the
second digit); an invalid digit raises "invalid hex character". -/
def read_hex (a b : Char) : Except String Nat :=
  match hexDigit a, hexDigit b with
  | some x, some y => .ok (x * 16 + y)
  | _, _ => .error "invalid hex character"

/-- Loop of `read_quoted_value`: scan head `h` against the write tail `t`.
`acc` is the byte sequence written so far.  The `u` escape writes the high
byte, advances the tail only when that byte was nonzero, then writes the
low byte: a zero high byte is therefore overwritten by the low byte. -/
def rqv_go (acc : List Char) (s : List Char) : Except String (List Char × List Char) :=
  match s with
  | [] => .error "quoted string not terminated"
  | c :: rest =>
    if c = '"' then .ok (acc, rest)
    else if c = '\x00' then .error "quoted string not terminated"
    else if c = '\\' then
      match rest with
      | [] => .error "invalid escaped character"
      | e :: rest2 =>
        if e = 'n' then rqv_go (acc ++ ['\n']) rest2
        else if e = 'r' then rqv_go (acc ++ ['\r']) rest2
        else if e = 't' then rqv_go (acc ++ ['\t']) rest2
        else if e = 'f' then rqv_go (acc ++ ['\x0c']) rest2
        else if e = 'b' then rqv_go (acc ++ ['\x08']) rest2
        else if e = '"' then rqv_go (acc ++ ['"']) rest2
        else if e = '/' then rqv_go (acc ++ ['/']) rest2
        else if e = '\\' then rqv_go (acc ++ ['\\']) rest2
        else if e = 'u' then
          match rest2 with
          | h1 :: h2 :: h3 :: h4 :: rest3 =>
            match read_hex h1 h2, read_hex h3 h4 with
            | .ok hi, .ok lo =>
              rqv_go (acc ++ (if hi = 0 then [Char.ofNat lo]
                              else [Char.ofNat hi, Char.ofNat lo])) rest3
            | .error m, _ => .error m
            | _, .error m => .error m
          | _ => .error "invalid hex character"
        else .error "invalid escaped character"
    else rqv_go (acc ++ [c]) rest

/-- `read_quoted_value`: skip the opening quote and unescape in place up to
the closing quote; returns the payload bytes and the rest of the buffer. -/
def read_quoted_value (s : List Char) : Except String (List Char × List Char) :=
  match s with
  | _ :: rest => rqv_go [] rest
  | [] => .error "quoted string not terminated"

/-- `read_num`: optional `-` (a leading `+` is left in the payload), digits,
optional fraction, optional exponent.  The token's type becomes FLOAT only
when a `.` is consumed: the exponent branch never changes the type.  The
payload is the exact consumed byte range: the surrounding container
writes the terminating NUL at the first byte after the token, so the
C-string payload is the consumed range.  (At top level no NUL is written
and the C payload runs to the end of the buffer; materialization stops at
the first non-digit anyway, so only a top-level FLOAT followed by trailing
bytes could differ — no claim involves that corner.) -/
def read_num (s : List Char) : Leaf × List Char :=
  let s1 := if s.head? = some '-' then s.drop 1 else s
  let s2 := s1.dropWhile isDigitC
  let fl := s2.head? = some '.'
  let s3 := if s2.head? = some '.' then (s2.drop 1).dropWhile isDigitC else s2
  let s4 :=
    if s3.head? = some 'e' || s3.head? = some 'E' then
      let t := s3.drop 1
      let t2 := if t.head? = some '-' || t.head? = some '+' then t.drop 1 else t
      t2.dropWhile isDigitC
    else s3
  let tk := if fl then LType.tFloat else LType.tFixnum
  ((leaf_init tk).withStr (s.take (s.length - s4.length)), s4)

def read_true (s : List Char) : Except String (Leaf × List Char) :=
  match s with
  | 't' :: 'r' :: 'u' :: 'e' :: rest => .ok (leaf_init .tTrue, rest)
  | _ => .error "invalid format, expected true"

def read_false (s : List Char) : Except String (Leaf × List Char) :=
  match s with
  | 'f' :: 'a' :: 'l' :: 's' :: 'e' :: rest => .ok (leaf_init .tFalse, rest)
  | _ => .error "invalid format, expected false"

def read_nil (s : List Char) : Except String (Leaf × List Char) :=
  match s with
  | 'n' :: 'u' :: 'l' :: 'l' :: rest => .ok (leaf_init .tNil, rest)
  | _ => .error "invalid format, expected nil"

/- The recursive-descent scanner.  Every function consumes `fuel` on every
call; the C recursion needs no fuel (the buffer shrinks), so all theorems
below quantify over `fuel` and concrete runs pick a large enough value.

`read_next` returns `none` (without raising) when the dispatch byte is a
premature NUL / end of buffer or any unrecognized byte — the C `default:`
and `case 0:` arms both `break` and return the null leaf.  The third
component counts the completed `read_next` calls: `pi->doc->size++` runs
once per call, so a successful parse of a value contributes exactly one
increment per token.  Containers attach `key`/`index` and `parent_type` to
each child; the key is stored with C-string semantics (`cstr`), which is
how every later use reads it. -/
mutual

def read_next (fuel : Nat) (s : List Char) : Except String (Option Leaf × List Char × Nat) :=
  match fuel with
  | 0 => .error "out of fuel"
  | f + 1 =>
    let s := skipWS s
    match s.head? with
    | none => .ok (none, s, 1)
    | some c =>
      if c = '{' then
        match read_obj f (s.drop 1) with
        | .ok (l, r, n) => .ok (some l, r, n + 1)
        | .error m => .error m
      else if c = '[' then
        match read_array f (s.drop 1) with
        | .ok (l, r, n) => .ok (some l, r, n + 1)
        | .error m => .error m
      else if c = '"' then
        match read_quoted_value s with
        | .ok (v, r) => .ok (some ((leaf_init .tString).withStr v), r, 1)
        | .error m => .error m
      else if c = '+' || c = '-' || isDigitC c then
        let (l, r) := read_num s
        .ok (some l, r, 1)
      else if c = 't' then
        match read_true s with
        | .ok (l, r) => .ok (some l, r, 1)
        | .error m => .error m
      else if c = 'f' then
        match read_false s with
        | .ok (l, r) => .ok (some l, r, 1)
        | .error m => .error m
      else if c = 'n' then
        match read_nil s with
        | .ok (l, r) => .ok (some l, r, 1)
        | .error m => .error m
      else .ok (none, s, 1)

def read_obj (fuel : Nat) (s : List Char) : Except String (Leaf × List Char × Nat) :=
  match fuel with
  | 0 => .error "out of fuel"
  | f + 1 =>
    let s := skipWS s
    if s.head? = some '}' then .ok (leaf_init .tHash, s.drop 1, 0)
    else read_obj_loop f [] 0 s

def read_obj_loop (fuel : Nat) (elems : List Leaf) (n : Nat) (s : List Char) :
    Except String (Leaf × List Char × Nat) :=
  match fuel with
  | 0 => .error "out of fuel"
  | f + 1 =>
    let s := skipWS s
    if s.head? = some '"' then
      match read_quoted_value s with
      | .error m => .error m
      | .ok (key, s1) =>
        let s2 := skipWS s1
        if s2.head? = some ':' then
          match read_next f (s2.drop 1) with
          | .error m => .error m
          | .ok (none, _, _) => .error "unexpected character"
          | .ok (some val, s3, nv) =>
            let elems := elems ++ [(val.withKey (cstr key))]
            let n := n + nv
            let s4 := skipWS s3
            if s4.head? = some '}' then
              .ok ((leaf_init .tHash).withElements elems, s4.drop 1, n)
            else if s4.head? = some ',' then read_obj_loop f elems n (s4.drop 1)
            else .error "invalid format, expected a comma or closing brace in an object"
        else .error "invalid format, expected a colon"
    else .error "unexpected character"

def read_array (fuel : Nat) (s : List Char) : Except String (Leaf × List Char × Nat) :=
  match fuel with
  | 0 => .error "out of fuel"
  | f + 1 =>
    let s := skipWS s
    if s.head? = some ']' then .ok (leaf_init .tArray, s.drop 1, 0)
    else read_array_loop f [] 0 0 s

def read_array_loop (fuel : Nat) (elems : List Leaf) (cnt : Nat) (n : Nat) (s : List Char) :
    Except String (Leaf × List Char × Nat) :=
  match fuel with
  | 0 => .error "out of fuel"
  | f + 1 =>
    match read_next f s with
    | .error m => .error m
    | .ok (none, _, _) => .error "unexpected character"
    | .ok (some e, s1, ne) =>
      let cnt := cnt + 1
      let elems := elems ++ [(e.withIndex cnt)]
      let n := n + ne
      let s2 := skipWS s1
      if s2.head? = some ',' then read_array_loop f elems cnt n (s2.drop 1)
      else if s2.head? = some ']' then
        .ok ((leaf_init .tArray).withElements elems, s2.drop 1, n)
      else .error "invalid format, expected a comma or closing bracket in an array"

end

/-- The MAX_STACK bound on the cursor stack (kept for documentation; the
navigation code in this version performs no depth check). -/
def MAX_STACK : Nat := 100

/-- The `_Doc` record: root node, cursor stack `where_path[0 .. where]`
(slot 0 is written with the parse result, so it mirrors `data`), and the
token counter behind `size()`.  Stack slots hold nullable node pointers. -/
structure Doc where
  data : Option Leaf
  stack : List (Option Leaf)
  size : Nat

/-- `parse_json` / `protect_open_proc`: run the scanner, store the result —
even a null one — as root and as `where_path[0]`, and hand the document to
the caller's block.  No check rejects a null root. -/
def parse_doc (fuel : Nat) (s : List Char) : Except String Doc :=
  match read_next fuel s with
  | .ok (d, _, n) => .ok ⟨d, [d], n⟩
  | .error m => .error m

/-- `doc_size`: the counter incremented once per `read_next` call. -/
def doc_size (doc : Doc) : Nat := doc.size

/- Number of JSON tokens in a tree: each scalar and each container counts
once; `tokenSum` is the count over a list of sibling trees. -/
mutual

def tokenCount : Leaf → Nat
  | .mk _ _ _ _ _ _ _ es => 1 + tokenSum es

def tokenSum : List Leaf → Nat
  | [] => 0
  | e :: r => tokenCount e + tokenSum r

end

/-- `leaf_fixnum_value`: optional sign, then base-10 digits up to the first
non-digit.  The C code switches to `rb_cstr_to_inum` when the accumulated
magnitude reaches `NUM_MAX` (a Bignum instead of an immediate Fixnum); both
routes read the same digits and denote the same integer, which is what is
modelled here. -/
def fixnumOf (s : List Char) : Int :=
  let (neg, s1) :=
    match s with
    | '-' :: r => (true, r)
    | '+' :: r => (false, r)
    | _ => (false, s)
  let n : Nat := (s1.takeWhile isDigitC).foldl (fun a c => a * 10 + digitVal c) 0
  if neg then -(n : Int) else (n : Int)

/- `leaf_value` with `leaf_array_value` / `leaf_hash_value` inlined at the
ARRAY/HASH arms.  `cnt` is the allocation counter: `rb_str_new2`,
`rb_float_new`, `rb_ary_new` and `rb_hash_new` each draw a fresh oid (the
collection draws its oid before materializing its children, matching the C
call order).  Fresh host strings for hash keys are not given oids — no
claim concerns key identity.  A first materialization of a FIXNUM / FLOAT
/ STRING leaf stores the value and flips `value_type` to RUBY_VAL; the
NIL/TRUE/FALSE arms store the value but (as in the C) do not flip the
state, which is invisible because those leaves are created RUBY_VAL.
ARRAY/HASH never flip the state: every call rebuilds the collection, while
the in-place updates of the children are reflected in the returned node.
In C the update happens through pointers; here the updated node is
returned alongside the value. -/
mutual

def leaf_value (cnt : Nat) (l : Leaf) : RValue × Leaf × Nat :=
  match l with
  | .mk t p k i s v c es =>
    if v = .rubyVal then (c.getD .vNil, .mk t p k i s v c es, cnt)
    else
      match t with
      | .tNil => (.vNil, .mk t p k i s v (some .vNil) es, cnt)
      | .tTrue => (.vTrue, .mk t p k i s v (some .vTrue) es, cnt)
      | .tFalse => (.vFalse, .mk t p k i s v (some .vFalse) es, cnt)
      | .tFixnum =>
        let val := RValue.vInt (fixnumOf s)
        (val, .mk t p k i s .rubyVal (some val) es, cnt)
      | .tFloat =>
        let val := RValue.vFloat cnt (cstr s)
        (val, .mk t p k i s .rubyVal (some val) es, cnt + 1)
      | .tString =>
        let val := RValue.vStr cnt (cstr s)
        (val, .mk t p k i s .rubyVal (some val) es, cnt + 1)
      | .tArray =>
        (.vArr cnt (values_list (cnt + 1) es).1,
         .mk t p k i s v c (values_list (cnt + 1) es).2.1,
         (values_list (cnt + 1) es).2.2)
      | .tHash =>
        (.vHash cnt (hash_list (cnt + 1) es).1,
         .mk t p k i s v c (hash_list (cnt + 1) es).2.1,
         (hash_list (cnt + 1) es).2.2)

def values_list (cnt : Nat) : List Leaf → List RValue × List Leaf × Nat
  | [] => ([], [], cnt)
  | e :: r =>
    ((leaf_value cnt e).1 :: (values_list (leaf_value cnt e).2.2 r).1,
     (leaf_value cnt e).2.1 :: (values_list (leaf_value cnt e).2.2 r).2.1,
     (values_list (leaf_value cnt e).2.2 r).2.2)

def hash_list (cnt : Nat) : List Leaf → List (List Char × RValue) × List Leaf × Nat
  | [] => ([], [], cnt)
  | e :: r =>
    ((cstr e.key, (leaf_value cnt e).1) :: (hash_list (leaf_value cnt e).2.2 r).1,
     (leaf_value cnt e).2.1 :: (hash_list (leaf_value cnt e).2.2 r).2.1,
     (hash_list (leaf_value cnt e).2.2 r).2.2)

end

/- Erase allocation identities: two values are "equal" in the Ruby `==`
sense used by the claims when their strips agree. -/
mutual

def strip : RValue → RValue
  | .vNil => .vNil
  | .vTrue => .vTrue
  | .vFalse => .vFalse
  | .vInt n => .vInt n
  | .vFloat _ s => .vFloat 0 s
  | .vStr _ s => .vStr 0 s
  | .vArr _ es => .vArr 0 (stripList es)
  | .vHash _ hs => .vHash 0 (stripEntries hs)

def stripList : List RValue → List RValue
  | [] => []
  | v :: r => strip v :: stripList r

def stripEntries : List (List Char × RValue) → List (List Char × RValue)
  | [] => []
  | (k, v) :: r => (k, strip v) :: stripEntries r

end

/-- Allocation id of a heap value (0 for immediates). -/
def topOid : RValue → Nat
  | .vFloat i _ => i
  | .vStr i _ => i
  | .vArr i _ => i
  | .vHash i _ => i
  | _ => 0

/-- A scalar (non-collection) node kind. -/
def isScalar (t : LType) : Bool :=
  match t with
  | .tArray => false
  | .tHash => false
  | _ => true

/-- Skip one leading `/` (the `if` following each consumed path step). -/
def dropSlash (p : List Char) : List Char :=
  if p.head? = some '/' then p.drop 1 else p

/-- The digit-scanning loop of an ARRAY step: greedily read digits into
`cnt` (the C `int` cannot overflow on the inputs of interest) and return
the rest of the path. -/
def digitsSplit (p : List Char) : Nat × List Char :=
  ((p.takeWhile isDigitC).foldl (fun a c => a * 10 + digitVal c) 0, p.dropWhile isDigitC)

/-- One HASH step: bytes up to the next `/` (consumed) or the end of the
path. -/
def keySplit (p : List Char) : List Char × List Char :=
  let k := p.takeWhile (fun c => c ≠ '/')
  (k, if k.length = p.length then [] else p.drop (k.length + 1))

/-- The do-while walk of an ARRAY's sibling ring: starting from the head,
the element is taken as soon as `1 >= cnt`, else `cnt` is decremented and
the walk advances; one full lap without a hit yields the null leaf.  Note
that `cnt = 0` and `cnt = 1` both take the head immediately. -/
def arrayNth (cnt : Nat) : List Leaf → Option Leaf
  | [] => none
  | e :: r => if cnt ≤ 1 then some e else arrayNth (cnt - 1) r

/-- The do-while walk of a HASH's sibling ring: the first element whose key
(as a C string; keys are stored truncated) equals the step is taken. -/
def hashFind (k : List Char) : List Leaf → Option Leaf
  | [] => none
  | e :: r => if e.key = k then some e else hashFind k r

/-- `get_leaf`, the non-destructive resolver used by fetch/type/each_value/
dump.  `below` lists the ancestors of `cur`, nearest first (the scratch
stack below `lp`).  An empty path returns the current leaf; `..` pops an
ancestor (null when already at the bottom of the scratch stack); on a
collection the step selects a child; on anything else — a scalar or an
empty collection — the chain of conditions falls through and the *current*
leaf is returned even though path steps remain.  The C recursion is bounded
by the path and the tree; `fuel` only feeds the Lean recursion and theorems
quantify over it. -/
def get_leaf (fuel : Nat) (below : List Leaf) (cur : Leaf) (path : List Char) : Option Leaf :=
  match fuel with
  | 0 => none
  | f + 1 =>
    match path with
    | [] => some cur
    | a :: tl =>
      if a = '.' ∧ tl.head? = some '.' then
        let p2 := dropSlash (tl.drop 1)
        match below with
        | parent :: rest => get_leaf f rest parent p2
        | [] => none
      else if cur.valueType = .colVal ∧ cur.elements.isEmpty = false then
        let path := a :: tl
        if cur.type = .tArray then
          let (cnt, p1) := digitsSplit path
          let p2 := dropSlash p1
          match arrayNth cnt cur.elements with
          | some e => get_leaf f (cur :: below) e p2
          | none => none
        else if cur.type = .tHash then
          let (k, p2) := keySplit path
          match hashFind k cur.elements with
          | some e => get_leaf f (cur :: below) e p2
          | none => none
        else none
      else some cur

/-- `get_doc_leaf`.  With no path (or no data) the current leaf is
returned.  An absolute path resolves from the root on a fresh scratch
stack.  A relative path copies `doc->where - doc->where_path` entries —
one fewer than the stack holds — so the scratch top `*lp` is read from an
uninitialized slot: the parameter `junk` stands for that indeterminate
value (a null stack entry would likewise reach `get_leaf` as an arbitrary
pointer). -/
def get_doc_leaf (fuel : Nat) (doc : Doc) (junk : Leaf) (path : Option (List Char)) :
    Option Leaf :=
  match doc.data, path with
  | some root, some p =>
    if p.head? = some '/' then get_leaf fuel [] root (p.drop 1)
    else get_leaf fuel ((doc.stack.dropLast.map (fun o => o.getD junk)).reverse) junk p
  | _, _ => (doc.stack.getLast?).bind id

/-- `doc_fetch`: with two arguments the second is the value returned when
the leaf is not found; with none the initial `Qnil` is.  When a leaf is
found its value is materialized — in C the scalar cache lands in the tree
through the leaf pointer; that write-back is invisible to every claim
below and the updated node is simply discarded here, while the cursor
stack and the rest of the document are untouched either way. -/
def doc_fetch (fuel cnt : Nat) (doc : Doc) (junk : Leaf) (path : Option (List Char))
    (deflt : Option RValue) : RValue × Doc × Nat :=
  match get_doc_leaf fuel doc junk path with
  | none => (deflt.getD .vNil, doc, cnt)
  | some leaf =>
    let (v, _, c2) := leaf_value cnt leaf
    (v, doc, c2)

/-- One segment of `doc_where`'s output buffer: the key (C string) for a
hash child, the decimal index for an array child, nothing for the root —
each followed by the separating `/`.  A null slot would be dereferenced by
the C code (undefined); the bare separator is emitted here, and no theorem
depends on that arm. -/
def leafSeg (o : Option Leaf) : List Char :=
  match o with
  | some l =>
    match l.parentType with
    | .pHash => cstr l.key ++ ['/']
    | .pArray => Nat.toDigits 10 l.index ++ ['/']
    | .pNone => ['/']
  | none => ['/']

/-- `doc_where`: `/` when the root slot is null or the cursor sits at the
root; otherwise the concatenated segments of every stack slot up to the
cursor, with the final `/` overwritten by the terminator. -/
def where_str (st : List (Option Leaf)) : List Char :=
  match st with
  | [] => ['/']
  | none :: _ => ['/']
  | [_] => ['/']
  | _ => ((st.map leafSeg).flatten).dropLast

/-- `move_step`, the destructive resolver of `doc_move`.  The stack list is
`where_path[0 .. where]`, so the last entry is the current slot.  An empty
path reports success (`loc = 0`).  A null current slot hits the
internal-error branch and returns `loc` unchanged.  `..` at the root
fails; otherwise the current slot is zeroed, the cursor pops, and on inner
failure the *parent* slot is overwritten with the saved child before the
cursor moves back up over the zeroed slot (the restoration of this branch
is faithfully off by one, see the C lines `*doc->where = init;
doc->where++;`).  A collection step pushes the matched child and pops it
again when the rest of the path fails; a step that matches nothing returns
the current `loc` as the failure index with the stack untouched. -/
def move_step (fuel : Nat) (st : List (Option Leaf)) (path : List Char) (loc : Nat) :
    List (Option Leaf) × Nat :=
  match fuel with
  | 0 => (st, loc)
  | f + 1 =>
    match path with
    | [] => (st, 0)
    | a :: tl =>
      match st.getLast? with
      | none => (st, loc)
      | some none => (st, loc)
      | some (some leaf) =>
        if a = '.' ∧ tl.head? = some '.' then
          if st.length = 1 then (st, loc)
          else
            let p2 := dropSlash (tl.drop 1)
            let (st2, loc2) := move_step f st.dropLast p2 (loc + 1)
            if loc2 = 0 then (st2, 0)
            else (st2.dropLast ++ [some leaf, none], loc2)
        else
          let path := a :: tl
          if leaf.valueType = .colVal ∧ leaf.elements.isEmpty = false then
            if leaf.type = .tArray then
              let (cnt, p1) := digitsSplit path
              if p1.head? = some '/' ∨ p1 = [] then
                match arrayNth cnt leaf.elements with
                | some e =>
                  let (st2, loc2) := move_step f (st ++ [some e]) (dropSlash p1) (loc + 1)
                  if loc2 = 0 then (st2, 0) else (st2.dropLast, loc2)
                | none => (st, loc)
              else (st, loc)
            else if leaf.type = .tHash then
              let (k, p2) := keySplit path
              match hashFind k leaf.elements with
              | some e =>
                let (st2, loc2) := move_step f (st ++ [some e]) p2 (loc + 1)
                if loc2 = 0 then (st2, 0) else (st2.dropLast, loc2)
              | none => (st, loc)
            else (st, loc)
          else (st, loc)

/-- `doc_move`: an absolute path first resets the cursor to the root slot
(this reset is *not* undone when the move then fails); the error value is
the failed step index raised in the `ArgError`. -/
def doc_move (fuel : Nat) (doc : Doc) (path : List Char) : Doc × Option Nat :=
  let (st0, p) :=
    if path.head? = some '/' then (doc.stack.take 1, path.drop 1)
    else (doc.stack, path)
  let (st1, loc) := move_step fuel st0 p 1
  ({ doc with stack := st1 }, if loc = 0 then none else some loc)

/- `each_leaf`.  On a collection the cursor advances one slot and each
child is written into that slot before recursing; the C loop never moves
the cursor back after the walk, so after a collection child the next
sibling is written wherever the recursion left the cursor.  On a scalar
the block is yielded with the live stack.  `each_leaf_go below l` runs
with stack `below ++ [some l]` and returns the yielded stacks in order
together with the final stack. -/
mutual

def each_leaf_go (fuel : Nat) (below : List (Option Leaf)) (l : Leaf) :
    List (List (Option Leaf)) × List (Option Leaf) :=
  match fuel with
  | 0 => ([], below ++ [some l])
  | f + 1 =>
    if l.valueType = .colVal then
      match l.elements with
      | [] => ([], below ++ [some l])
      | es => each_leaf_children f (below ++ [some l]) es
    else ([below ++ [some l]], below ++ [some l])

def each_leaf_children (fuel : Nat) (st : List (Option Leaf)) (es : List Leaf) :
    List (List (Option Leaf)) × List (Option Leaf) :=
  match fuel with
  | 0 => ([], st)
  | f + 1 =>
    match es with
    | [] => ([], st)
    | e :: rest =>
      let (t, s) := each_leaf_go f st e
      match rest with
      | [] => (t, s)
      | _ :: _ =>
        let (t2, s2) := each_leaf_children f s.dropLast rest
        (t ++ t2, s2)

end

/-- `doc_each_leaf`: saves the first `doc->where - doc->where_path` stack
slots (one fewer than are live), optionally moves to the given path on the
real cursor, traverses, and copies the saved slots back — the cursor
pointer itself is left wherever the traversal (or a failed move) put it. -/
def doc_each_leaf (fuel : Nat) (doc : Doc) (path : Option (List Char)) :
    List (List (Option Leaf)) × Doc :=
  let wlen := doc.stack.length - 1
  let save := doc.stack.take wlen
  let run : List (Option Leaf) → List (List (Option Leaf)) × List (Option Leaf) :=
    fun st =>
      match st.getLast? with
      | some (some l) => each_leaf_go fuel st.dropLast l
      | _ => ([], st)
  let restore : List (Option Leaf) → List (Option Leaf) :=
    fun st => save.take st.length ++ st.drop wlen
  match path with
  | some p =>
    let (st0, p2) :=
      if p.head? = some '/' then (doc.stack.take 1, p.drop 1)
      else (doc.stack, p)
    let (st1, loc) := move_step fuel st0 p2 1
    if loc = 0 then
      let (t, st2) := run st1
      (t, { doc with stack := restore st2 })
    else ([], { doc with stack := restore st1 })
  | none =>
    let (t, st2) := run doc.stack
    (t, { doc with stack := restore st2 })

/- Concrete fixtures: the document `[1,2]` exactly as the scanner builds
it, at the root and positioned on its first element. -/

def fx1 : Leaf := .mk .tFixnum .pArray [] 1 ['1'] .strVal none []

def fx2 : Leaf := .mk .tFixnum .pArray [] 2 ['2'] .strVal none []

def arr12 : Leaf := .mk .tArray .pNone [] 0 [] .colVal none [fx1, fx2]

def doc12 : Doc := ⟨some arr12, [some arr12], 3⟩

def doc12at1 : Doc := ⟨some arr12, [some arr12, some fx1], 3⟩

/- Fixtures for the document `[[1,2],3]`: the inner array is the first
element of the root, the scalar 3 the second. -/

def arrIn : Leaf := .mk .tArray .pArray [] 1 [] .colVal none [fx1, fx2]

def fx3 : Leaf := .mk .tFixnum .pArray [] 2 ['3'] .strVal none []

def rootNest : Leaf := .mk .tArray .pNone [] 0 [] .colVal none [arrIn, fx3]

def docNest : Doc := ⟨some rootNest, [some rootNest], 5⟩

/-- A stand-in for the uninitialized scratch-stack slot of a relative
`get_doc_leaf` (see `get_doc_leaf`); theorems quantify over it where it
matters. -/
def junkLeaf : Leaf := leaf_init .tNil

/- Fixtures for the document whose JSON text is `{"a":"é"}`, written
as raw bytes below: the string leaf's payload holds the single byte 0xe9
produced by the in-place unescape. -/

def jsonA : List Char :=
  ['{', '"', 'a', '"', ':', '"', '\\', 'u', '0', '0', 'e', '9', '"', '}']

def strLeafA : Leaf := .mk .tString .pHash ['a'] 0 ['\xe9'] .strVal none []

def hashA : Leaf := .mk .tHash .pNone [] 0 [] .colVal none [strLeafA]

def docA : Doc := ⟨some hashA, [some hashA], 2⟩

/-- The token node that `read_num` builds from the input `1e3`. -/
def leaf1e3 : Leaf := (leaf_init .tFixnum).withStr ['1', 'e', '3']

/-- The set of bytes on which `read_next` dispatches to a reader. -/
def isOpener (c : Char) : Bool :=
  c = '{' || c = '[' || c = '"' || c = '+' || c = '-' || isDigitC c ||
    c = 't' || c = 'f' || c = 'n'

/-- The bytes of the input `[1,[2,3],` followed by the object `"a":4` in
braces and the closing bracket: the spec's seven-token example. -/
def json7 : List Char :=
  ['[', '1', ',', '[', '2', ',', '3', ']', ',',
   '{', '"', 'a', '"', ':', '4', '}', ']']

def json4 : List Char := "[1,2,3]".toList

/- The trees the scanner builds from `json7` and `json4`, with the doc
records carrying the size counters 7 and 4. -/

def root7 : Leaf :=
  .mk .tArray .pNone [] 0 [] .colVal none
    [.mk .tFixnum .pArray [] 1 ['1'] .strVal none [],
     .mk .tArray .pArray [] 2 [] .colVal none
       [.mk .tFixnum .pArray [] 1 ['2'] .strVal none [],
        .mk .tFixnum .pArray [] 2 ['3'] .strVal none []],
     .mk .tHash .pArray [] 3 [] .colVal none
       [.mk .tFixnum .pHash ['a'] 0 ['4'] .strVal none []]]

def doc7 : Doc := ⟨some root7, [some root7], 7⟩

def root4 : Leaf :=
  .mk .tArray .pNone [] 0 [] .colVal none
    [.mk .tFixnum .pArray [] 1 ['1'] .strVal none [],
     .mk .tFixnum .pArray [] 2 ['2'] .strVal none [],
     .mk .tFixnum .pArray [] 3 ['3'] .strVal none []]

def doc4 : Doc := ⟨some root4, [some root4], 4⟩

/-- No two consecutive dots anywhere in the path: such a path can never
trigger the `..` branch of `move_step`, whose failure restoration is the
corrupting one. -/
def dotDotFree : List Char → Bool
  | [] => true
  | [_] => true
  | a :: b :: r => !(a = '.' && b = '.') && dotDotFree (b :: r)

/- ------------------------------------------------------------------ -/
/- Theorems.                                                           -/
/- ------------------------------------------------------------------ -/

/-- The `[1,2]` fixture is exactly what the scanner produces. -/
lemma doc12_parsed : parse_doc 20 "[1,2]".toList = .ok doc12 := by rfl

/-- C5 (counterexample): parsing an input whose first byte opens no token —
here `x` — does *not* fail with a SyntaxError: `read_next` falls through
its dispatch returning the null leaf, `protect_open_proc` stores it as the
root without complaint, and a document (with a null root and size 1) is
produced. -/
theorem c5_bad_opener_counterexample :
    parse_doc 5 ['x'] = .ok ⟨none, [none], 1⟩ ∧
    parse_doc 5 [] = .ok ⟨none, [none], 1⟩ := by
  exact ⟨by rfl, by rfl⟩

/-- C5 (amended): when the first non-whitespace byte is none of `{ [ " + -`
digit `t f n` — including an empty buffer or a premature NUL — the scanner
returns the null leaf *successfully*: no error is raised and the document
is built with a null root (`parse_doc` then yields a document with
`data = none`). -/
theorem c5_bad_opener_yields_null_root (fuel : Nat) (s : List Char)
    (hf : 0 < fuel)
    (h : ∀ c, (skipWS s).head? = some c → isOpener c = false) :
    read_next fuel s = .ok (none, skipWS s, 1) ∧
    parse_doc fuel s = .ok ⟨none, [none], 1⟩ := by
  have hr : read_next fuel s = .ok (none, skipWS s, 1) := by
    cases fuel with
    | zero => exact absurd hf (by simp)
    | succ f =>
      simp only [read_next]
      cases hh : (skipWS s).head? with
      | none => rfl
      | some c =>
        have hc := h c hh
        simp only [isOpener, Bool.or_eq_false_iff, decide_eq_false_iff_not] at hc
        obtain ⟨⟨⟨⟨⟨⟨⟨⟨h1, h2⟩, h3⟩, h4⟩, h5⟩, h6⟩, h7⟩, h8⟩, h9⟩ := hc
        simp [h1, h2, h3, h4, h5, h6, h7, h8, h9]
  exact ⟨hr, by simp [parse_doc, hr]⟩

/-- C5 (witness): the amended theorem applied to the input `x`. -/
theorem c5_bad_opener_yields_null_root_witness :
    read_next 5 ['x'] = .ok (none, ['x'], 1) ∧
    parse_doc 5 ['x'] = .ok ⟨none, [none], 1⟩ :=
  c5_bad_opener_yields_null_root 5 ['x'] (by decide)
    (fun c h => by
      have : c = 'x' := by simpa [skipWS, isWS] using h.symm
      subst this; decide)

/-- C6: the token `1e3` is classified FIXNUM, not FLOAT — the exponent
branch of `read_num` consumes `e3` without changing the type, so only a
consumed `.` makes a token FLOAT — and it then materializes as the integer
1.  The claim (and the spec) say the kind is FLOAT whenever `.`, `e` or
`E` was consumed. -/
theorem c6_exponent_token_is_fixnum :
    read_num ['1', 'e', '3'] = (leaf1e3, []) ∧
    leaf1e3.type = .tFixnum ∧
    leaf1e3.type ≠ .tFloat ∧
    (leaf_value 0 leaf1e3).1 = .vInt 1 := by
  refine ⟨by rfl, by rfl, by decide, by rfl⟩

/-- C9: when the resolver finds no leaf for a path, `doc_fetch` returns the
second argument when one was given and the initial `Qnil` otherwise; no
error is raised (the function returns normally in both cases) and the
document — its cursor stack included — is returned untouched. -/
theorem c9_fetch_default_on_missing (fuel cnt : Nat) (doc : Doc) (junk : Leaf)
    (p : List Char) (d : RValue)
    (h : get_doc_leaf fuel doc junk (some p) = none) :
    doc_fetch fuel cnt doc junk (some p) (some d) = (d, doc, cnt) ∧
    doc_fetch fuel cnt doc junk (some p) none = (.vNil, doc, cnt) := by
  constructor <;> simp [doc_fetch, h]

/-- C9 (witness): fetching `/9` from `[1,2]` with default 5 returns 5, and
with no default returns nil, leaving the document unchanged. -/
theorem c9_fetch_default_on_missing_witness :
    doc_fetch 20 0 doc12 junkLeaf (some ['/', '9']) (some (.vInt 5)) =
      (.vInt 5, doc12, 0) ∧
    doc_fetch 20 0 doc12 junkLeaf (some ['/', '9']) none = (.vNil, doc12, 0) :=
  c9_fetch_default_on_missing 20 0 doc12 junkLeaf ['/', '9'] (.vInt 5) (by rfl)

/-- C2 (counterexample): from `[1,2]` positioned on the first element, the
failing absolute move `/5` raises with step index 1 but leaves the cursor
at the *root*: the pre-call reset `doc->where = doc->where_path` of an
absolute path is never undone, so the stack is not restored to its
pre-call state. -/
theorem c2_absolute_move_counterexample :
    doc_move 20 doc12 ['/', '1'] = (doc12at1, none) ∧
    doc_move 20 doc12at1 ['/', '5'] = (⟨some arr12, [some arr12], 3⟩, some 1) ∧
    ([some arr12] : List (Option Leaf)) ≠ doc12at1.stack := by
  refine ⟨by rfl, by rfl, fun h => absurd (congrArg List.length h) (by decide)⟩

/-- C7 (counterexample): on the non-empty array `[1,2]`, `move("/0")` is
*not* rejected: the walk takes an element as soon as `1 >= cnt`, so index
0 succeeds and positions the cursor on the first element. -/
theorem c7_zero_index_counterexample :
    doc_move 20 doc12 ['/', '0'] = (doc12at1, none) ∧
    doc12at1.stack.getLast? = some (some fx1) := ⟨by rfl, by rfl⟩

lemma takeWhile_nil_of_head {p : List Char} {q : Char → Bool}
    (h : ∀ c, p.head? = some c → q c = false) : p.takeWhile q = [] := by
  cases p with
  | nil => rfl
  | cons c r => simp [List.takeWhile, h c rfl]

lemma dropWhile_self_of_head {p : List Char} {q : Char → Bool}
    (h : ∀ c, p.head? = some c → q c = false) : p.dropWhile q = p := by
  cases p with
  | nil => rfl
  | cons c r => simp [List.dropWhile, h c rfl]

/-- A single-digit array step parses to that digit's value. -/
lemma digitsSplit_single (a : Char) (p : List Char) (ha : isDigitC a = true)
    (hp : ∀ c, p.head? = some c → isDigitC c = false) :
    digitsSplit (a :: p) = (digitVal a, p) := by
  simp [digitsSplit, List.takeWhile, List.dropWhile, ha,
    takeWhile_nil_of_head hp, dropWhile_self_of_head hp]

/-- Index 0 and index 1 both select the head of the ring walk. -/
lemma arrayNth_zero_eq_one {es : List Leaf} (h : es.isEmpty = false) :
    arrayNth 0 es = arrayNth 1 es := by
  cases es with
  | nil => simp [List.isEmpty] at h
  | cons e r => simp [arrayNth]

/-- C7 (amended): on a non-empty array, `move_step` treats the step `0`
exactly as the step `1`: both select the first element (the ring walk
takes an element as soon as `1 >= cnt`), so a move whose next step is `0`
behaves identically to the same move with step `1`; in particular it is
not rejected. -/
theorem c7_zero_index_as_one (fuel : Nat) (st : List (Option Leaf)) (leaf : Leaf)
    (p : List Char) (loc : Nat)
    (hcur : st.getLast? = some (some leaf))
    (ht : leaf.type = .tArray) (hv : leaf.valueType = .colVal)
    (hne : leaf.elements.isEmpty = false)
    (hp : ∀ c, p.head? = some c → isDigitC c = false) :
    move_step fuel st ('0' :: p) loc = move_step fuel st ('1' :: p) loc := by
  cases fuel with
  | zero => rfl
  | succ f =>
    have h0 : ¬(('0' : Char) = '.' ∧ p.head? = some '.') := by
      rintro ⟨h, -⟩; exact absurd h (by decide)
    have h1 : ¬(('1' : Char) = '.' ∧ p.head? = some '.') := by
      rintro ⟨h, -⟩; exact absurd h (by decide)
    simp only [move_step, hcur, if_neg h0, if_neg h1,
      digitsSplit_single '0' p (by decide) hp,
      digitsSplit_single '1' p (by decide) hp,
      if_pos (And.intro hv hne), if_pos ht]
    rw [show digitVal '0' = 0 from by decide, show digitVal '1' = 1 from by decide,
      arrayNth_zero_eq_one hne]

/-- C7 (amended, witness): the equivalence applied to `[1,2]` with step
`0` at the root. -/
theorem c7_zero_index_as_one_witness :
    move_step 20 [some arr12] ['0'] 1 = move_step 20 [some arr12] ['1'] 1 :=
  c7_zero_index_as_one 20 [some arr12] arr12 [] 1 (by rfl) (by rfl) (by rfl)
    (by rfl) (fun c h => by cases h)

/-- The non-destructive resolver `get_leaf` also treats an array step `0`
as the step `1`: both descend to the first element with the same remaining
path. -/
lemma get_leaf_zero_eq_one (fuel : Nat) (below : List Leaf) (cur : Leaf)
    (p : List Char)
    (ht : cur.type = .tArray) (hv : cur.valueType = .colVal)
    (hne : cur.elements.isEmpty = false)
    (hp : ∀ c, p.head? = some c → isDigitC c = false) :
    get_leaf fuel below cur ('0' :: p) = get_leaf fuel below cur ('1' :: p) := by
  cases fuel with
  | zero => rfl
  | succ f =>
    have h0 : ¬(('0' : Char) = '.' ∧ p.head? = some '.') := by
      rintro ⟨h, -⟩; exact absurd h (by decide)
    have h1 : ¬(('1' : Char) = '.' ∧ p.head? = some '.') := by
      rintro ⟨h, -⟩; exact absurd h (by decide)
    simp only [get_leaf, if_neg h0, if_neg h1,
      digitsSplit_single '0' p (by decide) hp,
      digitsSplit_single '1' p (by decide) hp,
      if_pos (And.intro hv hne), if_pos ht]
    rw [show digitVal '0' = 0 from by decide, show digitVal '1' = 1 from by decide,
      arrayNth_zero_eq_one hne]

/-- C10: for a document whose root is a non-empty array, `doc_fetch` with
the absolute path `/0...` equals `doc_fetch` with `/1...`: the resolver
`get_leaf` shared by fetch, type, each_value and dump resolves both steps
to the first element. -/
theorem c10_fetch_zero_eq_one (fuel cnt : Nat) (doc : Doc) (junk : Leaf)
    (root : Leaf) (p : List Char) (d : Option RValue)
    (hd : doc.data = some root)
    (ht : root.type = .tArray) (hv : root.valueType = .colVal)
    (hne : root.elements.isEmpty = false)
    (hp : ∀ c, p.head? = some c → isDigitC c = false) :
    doc_fetch fuel cnt doc junk (some ('/' :: '0' :: p)) d =
      doc_fetch fuel cnt doc junk (some ('/' :: '1' :: p)) d := by
  simp only [doc_fetch, get_doc_leaf, hd, List.head?, List.drop,
    get_leaf_zero_eq_one fuel [] root p ht hv hne hp, if_pos rfl]
  simp

/-- C10 (witness): on `[1,2]`, fetching `/0` and `/1` coincide. -/
theorem c10_fetch_zero_eq_one_witness :
    doc_fetch 20 0 doc12 junkLeaf (some ['/', '0']) none =
      doc_fetch 20 0 doc12 junkLeaf (some ['/', '1']) none :=
  c10_fetch_zero_eq_one 20 0 doc12 junkLeaf arr12 [] none (by rfl) (by rfl)
    (by rfl) (by rfl) (fun c h => by cases h)

/-- C4 (counterexample): unescaping the escape `backslash-u 00e9` writes a *single* byte 0xe9,
not the two bytes 0x00 0xe9: the write tail advances past the high byte
only when it is nonzero, so a zero high byte is overwritten by the low
byte.  Consequently for the document whose text is `\x7b"a":"é"\x7d`,
`fetch("/a")` is the 1-byte string 0xe9, not the claimed 2-byte sequence
0x00 0xe9. -/
theorem c4_unicode_escape_counterexample :
    read_quoted_value ['"', '\\', 'u', '0', '0', 'e', '9', '"'] = .ok (['\xe9'], []) ∧
    parse_doc 20 jsonA = .ok docA ∧
    (doc_fetch 20 0 docA junkLeaf (some ['/', 'a']) none).1 = .vStr 0 ['\xe9'] ∧
    (['\xe9'] : List Char) ≠ ['\x00', '\xe9'] := by
  refine ⟨by rfl, by rfl, by rfl, by decide⟩

/-- C4 (amended): a `\uXXXX` escape emits the high byte followed by the low
byte of the code unit *when the high byte is nonzero*; when the high byte
is zero only the low byte is emitted (one byte, not two). -/
theorem c4_unicode_escape_bytes (acc : List Char) (h1 h2 h3 h4 : Char)
    (rest : List Char) (d1 d2 d3 d4 : Nat)
    (e1 : hexDigit h1 = some d1) (e2 : hexDigit h2 = some d2)
    (e3 : hexDigit h3 = some d3) (e4 : hexDigit h4 = some d4) :
    rqv_go acc ('\\' :: 'u' :: h1 :: h2 :: h3 :: h4 :: rest) =
      rqv_go (acc ++ (if d1 * 16 + d2 = 0 then [Char.ofNat (d3 * 16 + d4)]
                      else [Char.ofNat (d1 * 16 + d2), Char.ofNat (d3 * 16 + d4)]))
        rest := by
  simp only [rqv_go, read_hex, e1, e2, e3, e4]
  simp

/-- C4 (amended, witness): the escape lemma applied to the four hex digits
00e9 right before a closing quote: one byte is written. -/
theorem c4_unicode_escape_bytes_witness :
    rqv_go [] ['\\', 'u', '0', '0', 'e', '9', '"'] = .ok (['\xe9'], []) := by
  rw [show (['\\', 'u', '0', '0', 'e', '9', '"'] : List Char) =
        '\\' :: 'u' :: '0' :: '0' :: 'e' :: '9' :: ['"'] from rfl,
    c4_unicode_escape_bytes [] '0' '0' 'e' '9' ['"'] 0 0 14 9 rfl rfl rfl rfl]
  rfl

lemma dotDotFree_tail {a : Char} {tl : List Char}
    (h : dotDotFree (a :: tl) = true) : dotDotFree tl = true := by
  cases tl with
  | nil => rfl
  | cons b r =>
    simp only [dotDotFree, Bool.and_eq_true] at h
    exact h.2

lemma dotDotFree_drop {p : List Char} (n : Nat)
    (h : dotDotFree p = true) : dotDotFree (p.drop n) = true := by
  induction n generalizing p with
  | zero => simpa using h
  | succ m ih =>
    cases p with
    | nil => rfl
    | cons a tl => simpa using ih (dotDotFree_tail h)

lemma dotDotFree_dropWhile {p : List Char} {q : Char → Bool}
    (h : dotDotFree p = true) : dotDotFree (p.dropWhile q) = true := by
  induction p with
  | nil => rfl
  | cons a tl ih =>
    by_cases hq : q a = true
    · simpa [List.dropWhile, hq] using ih (dotDotFree_tail h)
    · simpa [List.dropWhile, hq] using h

lemma dotDotFree_dropSlash {p : List Char}
    (h : dotDotFree p = true) : dotDotFree (dropSlash p) = true := by
  simp only [dropSlash]
  split
  · exact dotDotFree_drop 1 h
  · exact h

lemma dotDotFree_keySplit {p : List Char}
    (h : dotDotFree p = true) : dotDotFree (keySplit p).2 = true := by
  simp only [keySplit]
  split
  · rfl
  · exact dotDotFree_drop _ h

/-- A `..`-free failing `move_step` leaves the stack exactly as it was:
the only stack writes are the push of a matched child, undone on failure
of the remaining path, so a failure that never enters the `..` branch
restores every slot. -/
lemma move_step_restores (fuel : Nat) :
    ∀ (st : List (Option Leaf)) (path : List Char) (loc : Nat),
      dotDotFree path = true → (move_step fuel st path loc).2 ≠ 0 →
      (move_step fuel st path loc).1 = st := by
  induction fuel with
  | zero => intro st path loc _ _; rfl
  | succ f ih =>
    intro st path loc hdd hfail
    cases path with
    | nil => simp [move_step] at hfail
    | cons a tl =>
      rw [move_step] at hfail ⊢
      cases hlast : st.getLast? with
      | none => rfl
      | some o =>
        cases o with
        | none => rfl
        | some leaf =>
          simp only [hlast] at hfail ⊢
          have hnotdd : ¬(a = '.' ∧ tl.head? = some '.') := by
            rintro ⟨ha, hb⟩
            subst ha
            cases tl with
            | nil => simp at hb
            | cons b r =>
              have hb2 : b = '.' := by simpa using hb
              subst hb2
              simp [dotDotFree] at hdd
          rw [if_neg hnotdd] at hfail ⊢
          by_cases hcol : leaf.valueType = .colVal ∧ leaf.elements.isEmpty = false
          · rw [if_pos hcol] at hfail ⊢
            by_cases harr : leaf.type = .tArray
            · rw [if_pos harr] at hfail ⊢
              by_cases hsl : (digitsSplit (a :: tl)).2.head? = some '/' ∨
                  (digitsSplit (a :: tl)).2 = []
              · rw [if_pos hsl] at hfail ⊢
                cases hnth : arrayNth (digitsSplit (a :: tl)).1 leaf.elements with
                | none => simp [hnth]
                | some e =>
                  simp only [hnth] at hfail ⊢
                  have hdd2 : dotDotFree (dropSlash (digitsSplit (a :: tl)).2) = true := by
                    exact dotDotFree_dropSlash (by
                      simpa [digitsSplit] using dotDotFree_dropWhile hdd)
                  rcases hms : move_step f (st ++ [some e])
                      (dropSlash (digitsSplit (a :: tl)).2) (loc + 1) with ⟨st2, loc2⟩
                  simp only [hms] at hfail ⊢
                  by_cases hz : loc2 = 0
                  · simp [hz] at hfail
                  · have hrec := ih (st ++ [some e])
                      (dropSlash (digitsSplit (a :: tl)).2) (loc + 1) hdd2
                      (by rw [hms]; exact hz)
                    rw [hms] at hrec
                    have hsteq : st2 = st ++ [some e] := hrec
                    simp only [if_neg hz]
                    rw [hsteq]
                    exact List.dropLast_concat
              · rw [if_neg hsl] at hfail ⊢
            · rw [if_neg harr] at hfail ⊢
              by_cases hhash : leaf.type = .tHash
              · rw [if_pos hhash] at hfail ⊢
                cases hfind : hashFind (keySplit (a :: tl)).1 leaf.elements with
                | none => simp [hfind]
                | some e =>
                  simp only [hfind] at hfail ⊢
                  have hdd2 : dotDotFree (keySplit (a :: tl)).2 = true :=
                    dotDotFree_keySplit hdd
                  rcases hms : move_step f (st ++ [some e])
                      (keySplit (a :: tl)).2 (loc + 1) with ⟨st2, loc2⟩
                  simp only [hms] at hfail ⊢
                  by_cases hz : loc2 = 0
                  · simp [hz] at hfail
                  · have hrec := ih (st ++ [some e]) (keySplit (a :: tl)).2 (loc + 1) hdd2
                      (by rw [hms]; exact hz)
                    rw [hms] at hrec
                    have hsteq : st2 = st ++ [some e] := hrec
                    simp only [if_neg hz]
                    rw [hsteq]
                    exact List.dropLast_concat
              · rw [if_neg hhash] at hfail ⊢
          · rw [if_neg hcol] at hfail ⊢

/-- C2 (amended): for a *relative* path without a `..` step, a failed
`move` raises the failed step index (a nonzero `loc`) and leaves the
cursor stack exactly as it was before the call.  (The counterexample
shows the claim is false as stated for absolute paths, whose pre-move
reset to the root is never undone; the `..` failure branch moreover
overwrites the parent slot, hence the `..`-free hypothesis.) -/
theorem c2_failed_relative_move_restores_stack (fuel : Nat) (doc : Doc)
    (path : List Char) (loc : Nat)
    (hrel : path.head? ≠ some '/') (hdd : dotDotFree path = true)
    (herr : (doc_move fuel doc path).2 = some loc) :
    (doc_move fuel doc path).1 = doc ∧ loc ≠ 0 := by
  simp only [doc_move, if_neg hrel] at herr ⊢
  rcases hms : move_step fuel doc.stack path 1 with ⟨st1, loc1⟩
  simp only [hms] at herr ⊢
  by_cases hz : loc1 = 0
  · simp [hz] at herr
  · have hst := move_step_restores fuel doc.stack path 1 hdd (by rw [hms]; exact hz)
    rw [hms] at hst
    simp only [if_neg hz, Option.some.injEq] at herr ⊢
    have hsteq : st1 = doc.stack := hst
    constructor
    · rw [hsteq]
    · rw [← herr]; exact hz

/-- C2 (amended, witness): the failing relative move `9` on `[1,2]` raises
step index 1 and leaves the document unchanged. -/
theorem c2_failed_relative_move_restores_stack_witness :
    (doc_move 20 doc12 ['9']).1 = doc12 ∧ (1 : Nat) ≠ 0 :=
  c2_failed_relative_move_restores_stack 20 doc12 ['9'] 1 (by simp) (by rfl)
    (by rfl)

lemma read_true_ok {s : List Char} {l : Leaf} {r : List Char}
    (h : read_true s = .ok (l, r)) : l = leaf_init .tTrue := by
  simp only [read_true] at h
  split at h
  · simp only [Except.ok.injEq, Prod.mk.injEq] at h; exact h.1.symm
  · simp at h

lemma read_false_ok {s : List Char} {l : Leaf} {r : List Char}
    (h : read_false s = .ok (l, r)) : l = leaf_init .tFalse := by
  simp only [read_false] at h
  split at h
  · simp only [Except.ok.injEq, Prod.mk.injEq] at h; exact h.1.symm
  · simp at h

lemma read_nil_ok {s : List Char} {l : Leaf} {r : List Char}
    (h : read_nil s = .ok (l, r)) : l = leaf_init .tNil := by
  simp only [read_nil] at h
  split at h
  · simp only [Except.ok.injEq, Prod.mk.injEq] at h; exact h.1.symm
  · simp at h

lemma tokenCount_eq (l : Leaf) : tokenCount l = 1 + tokenSum l.elements := by
  cases l; rfl

lemma tokenSum_append (xs ys : List Leaf) :
    tokenSum (xs ++ ys) = tokenSum xs + tokenSum ys := by
  induction xs with
  | nil => simp [tokenSum]
  | cons e r ih => simp [tokenSum, ih]; omega

lemma tokenCount_withKey (l : Leaf) (k : List Char) :
    tokenCount (l.withKey k) = tokenCount l := by
  cases l; rfl

lemma tokenCount_withIndex (l : Leaf) (i : Nat) :
    tokenCount (l.withIndex i) = tokenCount l := by
  cases l; rfl

lemma tokenCount_init_str (t : LType) (x : List Char) :
    tokenCount ((leaf_init t).withStr x) = 1 := by
  cases t <;> rfl

/-- Every `read_next` call bumps the size counter once, so a successful
scan reports exactly one increment per produced token: the loops report
the total over the children they appended. -/
lemma scan_counts_tokens (fuel : Nat) :
    (∀ s l r n, read_next fuel s = .ok (some l, r, n) → n = tokenCount l) ∧
    (∀ s l r n, read_obj fuel s = .ok (l, r, n) → n = tokenSum l.elements) ∧
    (∀ elems m s l r n, read_obj_loop fuel elems m s = .ok (l, r, n) →
      ∃ extra, l.elements = elems ++ extra ∧ n = m + tokenSum extra) ∧
    (∀ s l r n, read_array fuel s = .ok (l, r, n) → n = tokenSum l.elements) ∧
    (∀ elems cnt m s l r n, read_array_loop fuel elems cnt m s = .ok (l, r, n) →
      ∃ extra, l.elements = elems ++ extra ∧ n = m + tokenSum extra) := by
  induction fuel with
  | zero =>
    refine ⟨?_, ?_, ?_, ?_, ?_⟩
    · intro s l r n h; simp [read_next] at h
    · intro s l r n h; simp [read_obj] at h
    · intro elems m s l r n h; simp [read_obj_loop] at h
    · intro s l r n h; simp [read_array] at h
    · intro elems cnt m s l r n h; simp [read_array_loop] at h
  | succ f ih =>
    obtain ⟨ihn, iho, ihol, iha, ihal⟩ := ih
    refine ⟨?_, ?_, ?_, ?_, ?_⟩
    · intro s l r n h
      simp only [read_next] at h
      cases hh : (skipWS s).head? with
      | none => rw [hh] at h; simp at h
      | some c =>
        rw [hh] at h
        simp only at h
        split_ifs at h
        · cases hobj : read_obj f ((skipWS s).drop 1) with
          | error m => rw [hobj] at h; simp at h
          | ok t =>
            obtain ⟨l2, r2, n2⟩ := t
            rw [hobj] at h
            simp only [Except.ok.injEq, Prod.mk.injEq, Option.some.injEq] at h
            obtain ⟨hl, -, hn⟩ := h
            rw [← hn, ← hl, tokenCount_eq l2, iho _ _ _ _ hobj]
            omega
        · cases harr : read_array f ((skipWS s).drop 1) with
          | error m => rw [harr] at h; simp at h
          | ok t =>
            obtain ⟨l2, r2, n2⟩ := t
            rw [harr] at h
            simp only [Except.ok.injEq, Prod.mk.injEq, Option.some.injEq] at h
            obtain ⟨hl, -, hn⟩ := h
            rw [← hn, ← hl, tokenCount_eq l2, iha _ _ _ _ harr]
            omega
        · cases hq : read_quoted_value (skipWS s) with
          | error m => rw [hq] at h; simp at h
          | ok t =>
            obtain ⟨v, r2⟩ := t
            rw [hq] at h
            simp only [Except.ok.injEq, Prod.mk.injEq, Option.some.injEq] at h
            obtain ⟨hl, -, hn⟩ := h
            rw [← hn, ← hl, tokenCount_init_str]
        · simp only [Except.ok.injEq, Prod.mk.injEq, Option.some.injEq] at h
          obtain ⟨hl, -, hn⟩ := h
          rw [← hn, ← hl]
          simp only [read_num]
          rw [tokenCount_init_str]
        · cases ht : read_true (skipWS s) with
          | error m => rw [ht] at h; simp at h
          | ok t =>
            obtain ⟨l2, r2⟩ := t
            rw [ht] at h
            simp only [Except.ok.injEq, Prod.mk.injEq, Option.some.injEq] at h
            obtain ⟨hl, -, hn⟩ := h
            rw [← hn, ← hl, read_true_ok ht]; rfl
        · cases ht : read_false (skipWS s) with
          | error m => rw [ht] at h; simp at h
          | ok t =>
            obtain ⟨l2, r2⟩ := t
            rw [ht] at h
            simp only [Except.ok.injEq, Prod.mk.injEq, Option.some.injEq] at h
            obtain ⟨hl, -, hn⟩ := h
            rw [← hn, ← hl, read_false_ok ht]; rfl
        · cases ht : read_nil (skipWS s) with
          | error m => rw [ht] at h; simp at h
          | ok t =>
            obtain ⟨l2, r2⟩ := t
            rw [ht] at h
            simp only [Except.ok.injEq, Prod.mk.injEq, Option.some.injEq] at h
            obtain ⟨hl, -, hn⟩ := h
            rw [← hn, ← hl, read_nil_ok ht]; rfl
        · simp at h
    · intro s l r n h
      simp only [read_obj] at h
      split_ifs at h
      · simp only [Except.ok.injEq, Prod.mk.injEq] at h
        obtain ⟨hl, -, hn⟩ := h
        rw [← hn, ← hl]; rfl
      · obtain ⟨extra, he, hn⟩ := ihol _ _ _ _ _ _ h
        rw [hn, he]
        simp [tokenSum]
    · intro elems m s l r n h
      simp only [read_obj_loop] at h
      split_ifs at h
      · cases hq : read_quoted_value (skipWS s) with
        | error mm => rw [hq] at h; simp at h
        | ok t =>
          obtain ⟨key, s1⟩ := t
          rw [hq] at h
          simp only at h
          split_ifs at h
          · cases hn2 : read_next f ((skipWS s1).drop 1) with
            | error mm => rw [hn2] at h; simp at h
            | ok t2 =>
              obtain ⟨vo, s3, nv⟩ := t2
              rw [hn2] at h
              cases vo with
              | none => simp at h
              | some val =>
                simp only at h
                split_ifs at h
                · simp only [Except.ok.injEq, Prod.mk.injEq] at h
                  obtain ⟨hl, -, hn⟩ := h
                  refine ⟨[val.withKey (cstr key)], ?_, ?_⟩
                  · rw [← hl]; cases leaf_init .tHash; rfl
                  · rw [← hn]
                    have := ihn _ _ _ _ hn2
                    simp [tokenSum, tokenCount_withKey, ← this]
                · obtain ⟨extra2, he2, hn2e⟩ := ihol _ _ _ _ _ _ h
                  refine ⟨val.withKey (cstr key) :: extra2, ?_, ?_⟩
                  · rw [he2]; simp
                  · rw [hn2e]
                    have := ihn _ _ _ _ hn2
                    simp [tokenSum, tokenCount_withKey, ← this]
                    omega
    · intro s l r n h
      simp only [read_array] at h
      split_ifs at h
      · simp only [Except.ok.injEq, Prod.mk.injEq] at h
        obtain ⟨hl, -, hn⟩ := h
        rw [← hn, ← hl]; rfl
      · obtain ⟨extra, he, hn⟩ := ihal _ _ _ _ _ _ _ h
        rw [hn, he]
        simp [tokenSum]
    · intro elems cnt m s l r n h
      simp only [read_array_loop] at h
      cases hn2 : read_next f s with
      | error mm => rw [hn2] at h; simp at h
      | ok t2 =>
        obtain ⟨vo, s1, ne⟩ := t2
        rw [hn2] at h
        cases vo with
        | none => simp at h
        | some e =>
          simp only at h
          split_ifs at h
          · obtain ⟨extra2, he2, hn2e⟩ := ihal _ _ _ _ _ _ _ h
            refine ⟨e.withIndex (cnt + 1) :: extra2, ?_, ?_⟩
            · rw [he2]; simp
            · rw [hn2e]
              have := ihn _ _ _ _ hn2
              simp [tokenSum, tokenCount_withIndex, ← this]
              omega
          · simp only [Except.ok.injEq, Prod.mk.injEq] at h
            obtain ⟨hl, -, hn⟩ := h
            refine ⟨[e.withIndex (cnt + 1)], ?_, ?_⟩
            · rw [← hl]; cases leaf_init .tArray; rfl
            · rw [← hn]
              have := ihn _ _ _ _ hn2
              simp [tokenSum, tokenCount_withIndex, ← this]

/-- C3: whenever parsing succeeds with a (non-null) root, the document's
size counter — the value `size()` returns — equals the number of JSON
tokens in the tree, every scalar and every container counted once. -/
theorem c3_size_counts_tokens (fuel : Nat) (s : List Char) (doc : Doc) (root : Leaf)
    (h1 : parse_doc fuel s = .ok doc) (h2 : doc.data = some root) :
    doc_size doc = tokenCount root := by
  simp only [parse_doc] at h1
  cases hr : read_next fuel s with
  | error m => rw [hr] at h1; simp at h1
  | ok t =>
    obtain ⟨d, r, n⟩ := t
    rw [hr] at h1
    simp only [Except.ok.injEq] at h1
    rw [← h1] at h2
    simp only at h2
    rw [← h1]
    simp only [doc_size]
    rw [h2] at hr
    exact (scan_counts_tokens fuel).1 _ _ _ _ hr

/-- C3 (witness): the size counter is 7 for the nested example and 4 for
`[1,2,3]`, via the theorem applied to both parses. -/
theorem c3_size_counts_tokens_witness :
    parse_doc 60 json7 = .ok doc7 ∧ doc7.data = some root7 ∧ doc_size doc7 = 7 ∧
    parse_doc 60 json4 = .ok doc4 ∧ doc4.data = some root4 ∧ doc_size doc4 = 4 := by
  refine ⟨by rfl, rfl, ?_, by rfl, rfl, ?_⟩
  · rw [c3_size_counts_tokens 60 json7 doc7 root7 (by rfl) rfl]; rfl
  · rw [c3_size_counts_tokens 60 json4 doc4 root4 (by rfl) rfl]; rfl

/-- Materialization never changes a node's key (no arm of `leaf_value`
touches the `key` field). -/
lemma leaf_value_key (cnt : Nat) (l : Leaf) :
    ((leaf_value cnt l).2.1).key = l.key := by
  cases l with
  | mk t p k i s v c es =>
    by_cases hv : v = VType.rubyVal
    · simp [leaf_value, hv, Leaf.key]
    · cases t <;> simp [leaf_value, hv, Leaf.key]

/- The allocation counter never decreases across materialization. -/
mutual

theorem leaf_value_counter_le (c : Nat) (l : Leaf) : c ≤ (leaf_value c l).2.2 := by
  cases l with
  | mk t p k i s v c0 es =>
    by_cases hv : v = VType.rubyVal
    · simp [leaf_value, hv]
    · cases t <;> simp only [leaf_value, if_neg hv] <;>
        first
          | exact Nat.le_refl _
          | exact Nat.le_succ _
          | exact le_trans (Nat.le_succ c) (values_list_counter_le (c + 1) es)
          | exact le_trans (Nat.le_succ c) (hash_list_counter_le (c + 1) es)

theorem values_list_counter_le (c : Nat) (es : List Leaf) :
    c ≤ (values_list c es).2.2 := by
  cases es with
  | nil => simp [values_list]
  | cons e r =>
    simp only [values_list]
    exact le_trans (leaf_value_counter_le c e)
      (values_list_counter_le (leaf_value c e).2.2 r)

theorem hash_list_counter_le (c : Nat) (es : List Leaf) :
    c ≤ (hash_list c es).2.2 := by
  cases es with
  | nil => simp [hash_list]
  | cons e r =>
    simp only [hash_list]
    exact le_trans (leaf_value_counter_le c e)
      (hash_list_counter_le (leaf_value c e).2.2 r)

end

/- Materializing an already materialized tree changes nothing: a second
`leaf_value` pass over the node a first pass returned leaves the node
identical and produces a structurally equal value (equal after `strip`,
since rebuilt collections draw fresh oids). -/
mutual

theorem leaf_value_stable (l : Leaf) (c c2 : Nat) :
    (leaf_value c2 (leaf_value c l).2.1).2.1 = (leaf_value c l).2.1 ∧
    strip (leaf_value c2 (leaf_value c l).2.1).1 = strip (leaf_value c l).1 := by
  cases l with
  | mk t p k i s v c0 es =>
    by_cases hv : v = VType.rubyVal
    · simp [leaf_value, hv]
    · cases t with
      | tNil => simp [leaf_value, hv]
      | tTrue => simp [leaf_value, hv]
      | tFalse => simp [leaf_value, hv]
      | tFixnum => simp [leaf_value, hv]
      | tFloat => simp [leaf_value, hv]
      | tString => simp [leaf_value, hv]
      | tArray =>
        have hs := values_list_stable es (c + 1) (c2 + 1)
        simp only [leaf_value, if_neg hv]
        simp [strip, hs.1, hs.2]
      | tHash =>
        have hs := hash_list_stable es (c + 1) (c2 + 1)
        simp only [leaf_value, if_neg hv]
        simp [strip, hs.1, hs.2]

theorem values_list_stable (es : List Leaf) (c c2 : Nat) :
    (values_list c2 (values_list c es).2.1).2.1 = (values_list c es).2.1 ∧
    stripList (values_list c2 (values_list c es).2.1).1 =
      stripList (values_list c es).1 := by
  cases es with
  | nil => simp [values_list, stripList]
  | cons e r =>
    have he := leaf_value_stable e c c2
    have hr := values_list_stable r (leaf_value c e).2.2
      (leaf_value c2 (leaf_value c e).2.1).2.2
    simp only [values_list, stripList, he.1, he.2, hr.1, hr.2]
    exact ⟨trivial, trivial⟩

theorem hash_list_stable (es : List Leaf) (c c2 : Nat) :
    (hash_list c2 (hash_list c es).2.1).2.1 = (hash_list c es).2.1 ∧
    stripEntries (hash_list c2 (hash_list c es).2.1).1 =
      stripEntries (hash_list c es).1 := by
  cases es with
  | nil => simp [hash_list, stripEntries]
  | cons e r =>
    have he := leaf_value_stable e c c2
    have hr := hash_list_stable r (leaf_value c e).2.2
      (leaf_value c2 (leaf_value c e).2.1).2.2
    have hk := leaf_value_key c e
    simp only [hash_list, stripEntries, he.1, he.2, hr.1, hr.2, hk]
    exact ⟨trivial, trivial⟩

end

/-- C8: (scalar part) for every scalar node, a second `leaf_value` on the
node returned by the first is a fixpoint — it returns the very same cached
host value, the same node and the same allocation counter, i.e. the
identical host object with no new allocation.  (collection part) for every
ARRAY/OBJECT node in the collection state, materialization leaves the
state COL_VAL (never cached), the two fetches are structurally equal
(`strip`), and each fetch builds a *fresh* host collection: the first
draws oid `cnt`, the second draws a strictly larger oid. -/
theorem c8_scalar_cached_collections_rebuilt (cnt : Nat) (l : Leaf) :
    (isScalar l.type = true →
      leaf_value (leaf_value cnt l).2.2 (leaf_value cnt l).2.1 = leaf_value cnt l) ∧
    ((l.type = .tArray ∨ l.type = .tHash) → l.valueType = .colVal →
      ((leaf_value cnt l).2.1).valueType = .colVal ∧
      strip (leaf_value (leaf_value cnt l).2.2 (leaf_value cnt l).2.1).1 =
        strip (leaf_value cnt l).1 ∧
      topOid (leaf_value cnt l).1 = cnt ∧
      cnt < topOid (leaf_value (leaf_value cnt l).2.2 (leaf_value cnt l).2.1).1) := by
  constructor
  · intro hsc
    cases l with
    | mk t p k i s v c0 es =>
      by_cases hv : v = VType.rubyVal
      · simp [leaf_value, hv]
      · cases t with
        | tNil => simp [leaf_value, hv]
        | tTrue => simp [leaf_value, hv]
        | tFalse => simp [leaf_value, hv]
        | tFixnum => simp [leaf_value, hv]
        | tFloat => simp [leaf_value, hv]
        | tString => simp [leaf_value, hv]
        | tArray => simp [isScalar, Leaf.type] at hsc
        | tHash => simp [isScalar, Leaf.type] at hsc
  · intro htype hcol
    cases l with
    | mk t p k i s v c0 es =>
      have hv : v = VType.colVal := hcol
      have hnr : ¬v = VType.rubyVal := by rw [hv]; decide
      cases t with
      | tArray =>
        have hs := values_list_stable es (cnt + 1)
          ((values_list (cnt + 1) es).2.2 + 1)
        have hle := values_list_counter_le (cnt + 1) es
        refine ⟨?_, ?_, ?_, ?_⟩
        · simp [leaf_value, hnr, Leaf.valueType, hv]
        · simp only [leaf_value, if_neg hnr]
          simp [strip, hs.2]
        · simp [leaf_value, hnr, topOid]
        · simp only [leaf_value, if_neg hnr]
          simp only [topOid]
          omega
      | tHash =>
        have hs := hash_list_stable es (cnt + 1)
          ((hash_list (cnt + 1) es).2.2 + 1)
        have hle := hash_list_counter_le (cnt + 1) es
        refine ⟨?_, ?_, ?_, ?_⟩
        · simp [leaf_value, hnr, Leaf.valueType, hv]
        · simp only [leaf_value, if_neg hnr]
          simp [strip, hs.2]
        · simp [leaf_value, hnr, topOid]
        · simp only [leaf_value, if_neg hnr]
          simp only [topOid]
          omega
      | tNil => rcases htype with h | h <;> simp [Leaf.type] at h
      | tTrue => rcases htype with h | h <;> simp [Leaf.type] at h
      | tFalse => rcases htype with h | h <;> simp [Leaf.type] at h
      | tFixnum => rcases htype with h | h <;> simp [Leaf.type] at h
      | tFloat => rcases htype with h | h <;> simp [Leaf.type] at h
      | tString => rcases htype with h | h <;> simp [Leaf.type] at h

/-- C8 (witness): the theorem applied to the string leaf of the `docA`
fixture (scalar part) and to the array `[1,2]` (collection part). -/
theorem c8_scalar_cached_collections_rebuilt_witness :
    leaf_value (leaf_value 0 strLeafA).2.2 (leaf_value 0 strLeafA).2.1 =
      leaf_value 0 strLeafA ∧
    (((leaf_value 0 arr12).2.1).valueType = .colVal ∧
     strip (leaf_value (leaf_value 0 arr12).2.2 (leaf_value 0 arr12).2.1).1 =
       strip (leaf_value 0 arr12).1 ∧
     topOid (leaf_value 0 arr12).1 = 0 ∧
     0 < topOid (leaf_value (leaf_value 0 arr12).2.2 (leaf_value 0 arr12).2.1).1) :=
  ⟨(c8_scalar_cached_collections_rebuilt 0 strLeafA).1 (by rfl),
   (c8_scalar_cached_collections_rebuilt 0 arr12).2 (Or.inl rfl) (by rfl)⟩

/-- C1 (the code at the failing input): on `[[1,2],3]`, `each_leaf` never
moves the cursor back after finishing a collection's children, so when the
sibling 3 of the inner array is visited it is written into the slot the
recursion left behind: the live stack at the third yield is
root / inner-array / 3, `where()` prints `/1/2`, but `fetch("/1/2")`
resolves to the value 2 — not the yielded leaf's value 3.  The first two
yields round-trip correctly. -/
theorem c1_each_leaf_where_fetch_mismatch :
    parse_doc 30 "[[1,2],3]".toList = .ok docNest ∧
    (doc_each_leaf 30 docNest none).1 =
      [[some rootNest, some arrIn, some fx1],
       [some rootNest, some arrIn, some fx2],
       [some rootNest, some arrIn, some fx3]] ∧
    where_str [some rootNest, some arrIn, some fx3] = ['/', '1', '/', '2'] ∧
    (leaf_value 0 fx3).1 = .vInt 3 ∧
    (doc_fetch 30 0 docNest junkLeaf (some ['/', '1', '/', '2']) none).1 = .vInt 2 ∧
    (RValue.vInt 2) ≠ .vInt 3 := by
  refine ⟨by rfl, by rfl, by rfl, by rfl, by rfl, ?_⟩
  intro h
  exact absurd (congrArg (fun v => match v with | RValue.vInt n => n | _ => 0) h)
    (by decide)

end Oj
